import Mathlib

/-!
Verification of the AtomicUnorderedMap repository against its
natural-language specification.

The repository ships three source files: `src/Bits.h` (bit-manipulation
helpers, embedded below in namespace `folly`), `src/AtomicUnorderedMapTest.cpp`
and `src/main.cpp` (clients of the map).  The core header
`AtomicUnorderedMap.h` that both clients include is not part of `src/`, so
the insert-only hash map itself is modelled from the specification
(sections 3, 4.2, 4.3, 4.4, 6, 7 of `spec.md`); every such definition carries
a doc comment starting with `Modelled from the spec:`.  The model is the
sequential (single-writer-at-a-time) semantics of the specified protocol:
each `emplace` runs the spec's steps 1-7 without interference, so its CAS
succeeds on the first try and no slot is ever left in the CONSTRUCTING state
between operations.
-/

namespace folly

/-- Modelled semantics of the compiler builtins `__builtin_clz` /
`__builtin_clzl` / `__builtin_clzll` used by `folly::findLastSet` in
`src/Bits.h`: the number of leading zero bits of `v` in a `w`-bit word,
which for `v ≠ 0` equals `w - 1 - ⌊log2 v⌋`.  The C builtin is undefined at
`v = 0`; `findLastSet` only evaluates it for `v ≠ 0`. -/
def builtin_clz (w : Nat) (v : Nat) : Nat := w - 1 - Nat.log2 v

/-- Embeds `folly::findLastSet` (src/Bits.h lines 170-190):
`v ? 1u + ((8u * size - 1u) ^ clz(v)) : 0u`, where `8 * size` is the bit
width `w` of the operand after the C integer promotion (`size` is
`max(sizeof(T), sizeof(unsigned int))`, so `w ∈ {32, 64}` for the C types;
the value of the expression is the same for any `w` of the form `2 ^ k`
with `v < 2 ^ w`). -/
def findLastSet (w : Nat) (v : Nat) : Nat :=
  if v = 0 then 0 else 1 + ((w - 1) ^^^ builtin_clz w v)

/-- Embeds `folly::nextPowTwo` (src/Bits.h lines 226-230):
`v ? (T(1) << findLastSet(v - 1)) : T(1)`, over a `w`-bit unsigned type
(the final `% 2 ^ w` is the truncation of the C shift back to `T`). -/
def nextPowTwo (w : Nat) (v : Nat) : Nat :=
  if v = 0 then 1 else (1 <<< findLastSet w (v - 1)) % 2 ^ w

/-- States that `p` is the least power of two that is greater than or equal
to `v`. -/
def IsLeastPowTwoGE (p v : Nat) : Prop :=
  (∃ k, p = 2 ^ k) ∧ v ≤ p ∧ ∀ q, (∃ j, q = 2 ^ j) → v ≤ q → p ≤ q

end folly

namespace AUM

/-- Modelled from the spec: the per-slot state machine of section 4.1, with
states EMPTY, CONSTRUCTING and LINKED (the WAITING bit and the rendezvous
only matter under interleaving and never appear in the sequential
semantics). -/
inductive SlotState : Type
  | empty : SlotState
  | constructing : SlotState
  | linked : SlotState
deriving DecidableEq, Repr

/-- Modelled from the spec: one slot of the fixed backing array (section 3):
a state word, a next-in-chain index (0 is the end-of-chain sentinel) and raw
storage for one key and one value, legible only in the LINKED state (hence
the `Option`s). -/
structure Slot (K V : Type) : Type where
  state : SlotState
  next : Nat
  key : Option K
  val : Option V

/-- Modelled from the spec: a slot of a freshly constructed map — EMPTY, no
chain successor, no key or value constructed. -/
def emptySlot (K V : Type) : Slot K V := ⟨SlotState.empty, 0, none, none⟩

/-- Modelled from the spec: the map object of section 3.  `slotCount` is the
structural parameter S; index 0 is the reserved sentinel, usable slots are
`1 .. slotCount - 1`; `bump` is the monotone next-free-slot counter, which
starts at 1.  The spec packs each bucket's chain head into the state word of
the slot with that bucket's index; here `heads` keeps that per-bucket head
index as its own field, which is the same abstract state. -/
structure IMap (K V : Type) : Type where
  hash : K → Nat
  keyEq : K → K → Bool
  slotCount : Nat
  slots : Nat → Slot K V
  heads : Nat → Nat
  bump : Nat

/-- Modelled from the spec: the state of a map directly after construction —
every slot EMPTY, every bucket chain empty, bump counter at 1 (slot 0 is the
sentinel). -/
def mkEmpty (K V : Type) (S : Nat) (H : K → Nat) (E : K → K → Bool) : IMap K V :=
  ⟨H, E, S, fun _ => emptySlot K V, fun _ => 0, 1⟩

/-- Modelled from the spec: the bucket of a key is `H(key) mod S`
(section 4.2). -/
def bucketOf (K V : Type) (m : IMap K V) (k : K) : Nat :=
  m.hash k % m.slotCount

/-- Modelled from the spec: the list of slot indices visited when walking a
chain from index `i` following next-in-chain pointers until the sentinel 0
(section 4.2).  The fuel argument makes the walk structurally terminating;
on well-formed maps the next indices strictly decrease, so any fuel above
the start index computes the full chain. -/
def chain (K V : Type) (m : IMap K V) : Nat → Nat → List Nat
  | 0, _ => []
  | fuel + 1, i => if i = 0 then [] else i :: chain K V m fuel (m.slots i).next

/-- Modelled from the spec: the full chain of bucket `b`, walked from the
bucket's head index with enough fuel for any well-formed chain. -/
def bucketChain (K V : Type) (m : IMap K V) (b : Nat) : List Nat :=
  chain K V m m.slotCount (m.heads b)

/-- Modelled from the spec: whether the slot at index `i` is a hit for the
key `k` during a chain search — the slot is LINKED and its key is equal to
`k` under the map's equality predicate (section 4.2). -/
def slotMatches (K V : Type) (m : IMap K V) (k : K) (i : Nat) : Bool :=
  (match (m.slots i).state with
   | SlotState.linked => true
   | _ => false) &&
  (match (m.slots i).key with
   | some ki => m.keyEq ki k
   | none => false)

/-- Modelled from the spec: walk a list of chain positions and return the
first index whose slot matches the searched key, or the sentinel 0 if none
does (section 4.2; in the sequential semantics no slot on a reachable chain
is EMPTY or CONSTRUCTING, so the rendezvous and the stop-at-EMPTY rule never
fire). -/
def searchChain (K V : Type) (m : IMap K V) (k : K) : List Nat → Nat
  | [] => 0
  | i :: rest =>
      if slotMatches K V m k i then i else searchChain K V m k rest

/-- Modelled from the spec: lookup (section 4.4) — compute the bucket of the
key, walk its chain, and return the index of the LINKED slot holding an
equal key, or the sentinel 0 (the end iterator) if there is none.  A
returned index doubles as the identity of the value reference the caller
obtains: the value lives in that slot until map destruction. -/
def find (K V : Type) (m : IMap K V) (k : K) : Nat :=
  searchChain K V m k (bucketChain K V m (bucketOf K V m k))

/-- Modelled from the spec: the successful insert path of emplace
(section 4.3, steps 2-6) with the CAS succeeding at once: claim slot `bump`
from the bump counter, construct key and value there, point its
next-in-chain at the current head of the key's bucket, and publish it as
LINKED while making it the new bucket head. -/
def insertFresh (K V : Type) (m : IMap K V) (k : K) (v : V) : IMap K V :=
  { m with
    bump := m.bump + 1
    slots := fun i =>
      if i = m.bump then
        ⟨SlotState.linked, m.heads (bucketOf K V m k), some k, some v⟩
      else m.slots i
    heads := fun b =>
      if b = bucketOf K V m k then m.bump else m.heads b }

/-- Modelled from the spec: the CapacityExhausted failure of section 7,
raised by emplace when the bump counter has reached the slot count.  The
test `AtomicUnorderedInsertMap.capacity_exceeded` shows that the
implementation surfaces it to the caller as a thrown `std::bad_alloc`. -/
inductive EmplaceFailure : Type
  | capacityExhausted : EmplaceFailure
deriving DecidableEq, Repr

/-- Modelled from the test `AtomicUnorderedInsertMap.capacity_exceeded`
(src/AtomicUnorderedMapTest.cpp lines 147-157): the C++ exception type a map
failure is surfaced as.  The spec (section 7) leaves the concrete failure
shape as an implementation choice; the test pins it to `std::bad_alloc`. -/
inductive CppException : Type
  | bad_alloc : CppException
deriving DecidableEq, Repr

/-- Modelled from the test `AtomicUnorderedInsertMap.capacity_exceeded`: how
each structured failure of the map is surfaced to a C++ caller. -/
def EmplaceFailure.surface : EmplaceFailure → CppException
  | EmplaceFailure.capacityExhausted => CppException.bad_alloc

/-- Modelled from the spec: insert-or-find (section 4.3).  Search the key's
chain first; on a hit return the existing slot and the already-present flag
without touching the map.  Otherwise claim a fresh slot from the bump
counter — failing with CapacityExhausted if the counter has reached the
slot count S — and insert.  The returned index is the value reference; the
Bool is the "newly inserted" flag. -/
def emplace (K V : Type) (m : IMap K V) (k : K) (v : V) :
    Except EmplaceFailure (IMap K V × Nat × Bool) :=
  if find K V m k ≠ 0 then Except.ok (m, find K V m k, false)
  else if m.bump < m.slotCount then
    Except.ok (insertFresh K V m k v, m.bump, true)
  else Except.error EmplaceFailure.capacityExhausted

/-- Modelled from the spec: in-place mutation of the value payload of slot
`i` through a reference obtained from find or emplace (section 5,
shared-resource policy: after LINKED the slot is read-only except that the
value payload may be internally mutable, as with the `MutableData` /
`MutableAtom` wrappers of the tests).  Only the value cell changes; state,
next pointer and key are untouched. -/
def mutateVal (K V : Type) (m : IMap K V) (i : Nat) (f : V → V) : IMap K V :=
  { m with
    slots := fun j =>
      if j = i then
        { m.slots j with val := Option.map f (m.slots j).val }
      else m.slots j }

/-- Modelled from the spec: the slot count accessor `SlotsNum()` exercised
by the test `AtomicUnorderedInsertMap.load_factor`. -/
def SlotsNum (K V : Type) (m : IMap K V) : Nat := m.slotCount

/-- Modelled from the spec: the derived slot count of section 4.2 — given
capacity C and maximum load factor `lfNum / lfDen`, the table gets
`⌈C / λ⌉` usable slots plus the sentinel slot 0, i.e.
`S = ⌈C * lfDen / lfNum⌉ + 1` ("S > C, a prime or near-prime ≥ C /
load_factor"; the spec does not fix the rounding beyond those bounds, and
the tests only rely on them). -/
def derivedSlotCount (C lfNum lfDen : Nat) : Nat :=
  (C * lfDen + lfNum - 1) / lfNum + 1

/-- Modelled from the spec: the ConfigurationError of section 7, signalled
at construction time when the derived slot count exceeds what the chosen
index width can address. -/
inductive ConfigError : Type
  | capacityExceedsIndexWidth : ConfigError
deriving DecidableEq, Repr

/-- Modelled from the spec: map construction (sections 4.2, 6, 7) for index
width W — derive the slot count S from the capacity and the load factor,
check `S ≤ 2 ^ W - 1` (the −1 accounts for the sentinel), and signal a
configuration error before any operation runs if the bound is violated. -/
def construct (K V : Type) (W C lfNum lfDen : Nat) (H : K → Nat)
    (E : K → K → Bool) : Except ConfigError (IMap K V) :=
  if derivedSlotCount C lfNum lfDen ≤ 2 ^ W - 1 then
    Except.ok (mkEmpty K V (derivedSlotCount C lfNum lfDen) H E)
  else Except.error ConfigError.capacityExceedsIndexWidth

/-- Outcome of running a list of emplace calls in order: either all
succeeded, or the run stopped at the first failing key, with the map state
at that point (the C++ loop throws there, leaving the map intact). -/
inductive SeqResult (K V : Type) : Type
  | ok : IMap K V → SeqResult K V
  | failed : IMap K V → K → EmplaceFailure → SeqResult K V

/-- Runs `emplace` over a list of key-value pairs in order, as the test
loops do, stopping at the first failure. -/
def emplaceSeq (K V : Type) (m : IMap K V) : List (K × V) → SeqResult K V
  | [] => SeqResult.ok m
  | (k, v) :: rest =>
      match emplace K V m k v with
      | Except.ok (m2, _, _) => emplaceSeq K V m2 rest
      | Except.error e => SeqResult.failed m k e

/-- Lawfulness of the user-supplied hash function and equality predicate,
assumed by the spec ("consumed as pure functions"; instantiated by
`std::hash` and `std::equal_to` in the tests): the predicate is an
equivalence and the hash respects it. -/
structure GoodFns (K : Type) (H : K → Nat) (E : K → K → Bool) : Prop where
  compat : ∀ a b, E a b = true → H a = H b
  refl : ∀ a, E a a = true
  symm : ∀ a b, E a b = E b a
  trans : ∀ a b c, E a b = true → E b c = true → E a c = true

/-- Map states reachable from a freshly constructed map by successful
emplace calls (find, iteration and failed emplace calls do not change the
state). -/
inductive Reachable (K V : Type) (H : K → Nat) (E : K → K → Bool) :
    IMap K V → Prop
  | init : ∀ S, 0 < S → Reachable K V H E (mkEmpty K V S H E)
  | step : ∀ m k v m2 i ins, Reachable K V H E m →
      emplace K V m k v = Except.ok (m2, i, ins) → Reachable K V H E m2

/-- Evolution of a map state by zero or more further successful emplace
calls. -/
inductive Evolves (K V : Type) : IMap K V → IMap K V → Prop
  | refl : ∀ m, Evolves K V m m
  | step : ∀ m m1 m2 k v i ins, Evolves K V m m1 →
      emplace K V m1 k v = Except.ok (m2, i, ins) → Evolves K V m m2

/-- Hash function for `int` keys as the tests instantiate it:
`std::hash<int>` of libstdc++ is the identity. -/
def natHash (n : Nat) : Nat := n

/-- Equality predicate for `int` keys as the tests instantiate it:
`std::equal_to<int>`. -/
def natBeq (a b : Nat) : Bool := Nat.beq a b

/-- The map of the test `AtomicUnorderedInsertMap.capacity_exceeded`:
capacity 5000, maximum load factor 1.0, so it gets `5000 / 1.0 = 5000`
usable slots plus the sentinel. -/
def capMap : IMap Nat Bool :=
  mkEmpty Nat Bool (derivedSlotCount 5000 1 1) natHash natBeq

/-- The emplace calls of the test `capacity_exceeded` loop:
`for i in 0 .. 5999, m.emplace(i, false)`. -/
def capKeys : List (Nat × Bool) :=
  (List.range 6000).map (fun i => (i, false))

/-- First 5000 emplace calls of the `capacity_exceeded` loop, which all
fit. -/
def capKeysA : List (Nat × Bool) :=
  (List.range 5000).map (fun i => (i, false))

/-- The map of the test `AtomicUnorderedInsertMap.load_factor`: capacity
5000, maximum load factor 0.5, so it gets `5000 / 0.5 = 10000` usable slots
plus the sentinel. -/
def lfMap : IMap Nat Bool :=
  mkEmpty Nat Bool (derivedSlotCount 5000 1 2) natHash natBeq

/-- The emplace calls of the test `load_factor` loop:
`for i in 0 .. 9999, m.emplace(i, true)`. -/
def lfKeys : List (Nat × Bool) :=
  (List.range 10000).map (fun i => (i, true))

/-- Small four-slot map over Nat keys and Nat values used to instantiate
the general theorems at concrete inputs. -/
def wMap : IMap Nat Nat := mkEmpty Nat Nat 4 natHash natBeq

/-- Small two-slot map over Nat keys and Bool values: one sentinel slot and
one usable slot, so a single insert fills it. -/
def wMapB : IMap Nat Bool := mkEmpty Nat Bool 2 natHash natBeq

/-- Emplace calls of the `capacity_exceeded` loop after the failing one
(keys 5001 .. 5999), never reached because the loop throws at key 5000. -/
def capKeysTail : List (Nat × Bool) :=
  (List.range 999).map (fun i => (5001 + i, false))

/-- Four-slot map holding the two entries `1 ↦ 5` and `2 ↦ 6`, for
instantiating the mutation frame theorem at a concrete input. -/
def wMap2 : IMap Nat Nat :=
  insertFresh Nat Nat (insertFresh Nat Nat wMap 1 5) 2 6

/-- Bucket that the key stored in slot `i` hashes to (0 when no key is
stored there, a case the invariant rules out for allocated slots). -/
def slotKeyBucket (K V : Type) (m : IMap K V) (i : Nat) : Nat :=
  match (m.slots i).key with
  | some ki => m.hash ki % m.slotCount
  | none => 0

/-- Well-formedness invariant of the sequential model, an embedding of the
spec's invariants of section 3: slot 0 is the sentinel and unallocated slots
are empty; every allocated slot is LINKED with a constructed key and value;
next-in-chain indices strictly decrease (chains are acyclic and end at the
sentinel); bucket heads point at allocated slots; every allocated slot is on
the chain of its key's bucket; no two distinct allocated slots hold equal
keys. -/
structure WF (K V : Type) (m : IMap K V) : Prop where
  pos : 0 < m.slotCount
  bump_pos : 1 ≤ m.bump
  bump_le : m.bump ≤ m.slotCount
  unalloc : ∀ i, i = 0 ∨ m.bump ≤ i → m.slots i = emptySlot K V
  alloc_state : ∀ i, 1 ≤ i → i < m.bump → (m.slots i).state = SlotState.linked
  alloc_key : ∀ i, 1 ≤ i → i < m.bump → ∃ k, (m.slots i).key = some k
  alloc_val : ∀ i, 1 ≤ i → i < m.bump → ∃ v, (m.slots i).val = some v
  next_lt : ∀ i, 1 ≤ i → i < m.bump → (m.slots i).next < i
  head_lt : ∀ b, m.heads b < m.bump
  complete : ∀ i, 1 ≤ i → i < m.bump →
    i ∈ bucketChain K V m (slotKeyBucket K V m i)
  uniq : ∀ i j ki kj, 1 ≤ i → i < m.bump → 1 ≤ j → j < m.bump →
    (m.slots i).key = some ki → (m.slots j).key = some kj →
    m.keyEq ki kj = true → i = j

end AUM

namespace folly

theorem xor_ones_16 : ∀ x, x < 16 → (15 ^^^ x) = 15 - x := by decide

theorem xor_ones_32 : ∀ x, x < 32 → (31 ^^^ x) = 31 - x := by decide

theorem xor_ones_64 : ∀ x, x < 64 → (63 ^^^ x) = 63 - x := by decide

theorem findLastSet_zero (w : Nat) : findLastSet w 0 = 0 := by
  simp [findLastSet]

theorem findLastSet_eq_log2 (w : Nat) (hw : w = 16 ∨ w = 32 ∨ w = 64)
    (v : Nat) (hv : 0 < v) (hvw : v < 2 ^ w) :
    findLastSet w v = 1 + Nat.log2 v := by
  have hvne : v ≠ 0 := Nat.pos_iff_ne_zero.mp hv
  have hlog : Nat.log2 v < w := (Nat.log2_lt hvne).mpr hvw
  have hle : Nat.log2 v ≤ w - 1 := by omega
  have hclz : builtin_clz w v = w - 1 - Nat.log2 v := rfl
  have hxor : (w - 1) ^^^ (w - 1 - Nat.log2 v) = Nat.log2 v := by
    rcases hw with h | h | h <;> subst h
    · have := xor_ones_16 (15 - Nat.log2 v) (by omega)
      simpa [Nat.sub_sub_self hle] using this
    · have := xor_ones_32 (31 - Nat.log2 v) (by omega)
      simpa [Nat.sub_sub_self hle] using this
    · have := xor_ones_64 (63 - Nat.log2 v) (by omega)
      simpa [Nat.sub_sub_self hle] using this
  simp [findLastSet, hvne, hclz, hxor, Nat.add_comm]

theorem nextPowTwo_zero (w : Nat) : nextPowTwo w 0 = 1 := by
  simp [nextPowTwo]

theorem nextPowTwo_least (w : Nat) (hw : w = 16 ∨ w = 32 ∨ w = 64)
    (v : Nat) (hv1 : 1 ≤ v) (hv2 : v ≤ 2 ^ (w - 1)) :
    IsLeastPowTwoGE (nextPowTwo w v) v := by
  have hwpos : 0 < w := by rcases hw with h | h | h <;> omega
  have hvne : v ≠ 0 := by omega
  rcases Nat.eq_or_lt_of_le hv1 with h1 | h1
  · -- v = 1
    have hv : v = 1 := h1.symm
    subst hv
    have hw2 : (1 : Nat) < 2 ^ w := Nat.one_lt_two_pow (by omega)
    have : nextPowTwo w 1 = 1 := by
      simp [nextPowTwo, findLastSet, Nat.mod_eq_of_lt hw2]
    rw [this]
    refine ⟨⟨0, rfl⟩, le_refl 1, ?_⟩
    intro q hq hq1
    exact hq1
  · -- v ≥ 2
    have hu : v - 1 ≠ 0 := by omega
    have hupos : 0 < v - 1 := by omega
    have huw : v - 1 < 2 ^ w := by
      have : 2 ^ (w - 1) ≤ 2 ^ w := Nat.pow_le_pow_right (by omega) (by omega)
      omega
    have hfls : findLastSet w (v - 1) = 1 + Nat.log2 (v - 1) :=
      findLastSet_eq_log2 w hw (v - 1) hupos huw
    have hloglt : Nat.log2 (v - 1) < w - 1 := by
      apply (Nat.log2_lt hu).mpr
      omega
    have hexp : 1 + Nat.log2 (v - 1) < w := by omega
    have hpowlt : 2 ^ (1 + Nat.log2 (v - 1)) < 2 ^ w :=
      Nat.pow_lt_pow_right (by omega) hexp
    have hval : nextPowTwo w v = 2 ^ (Nat.log2 (v - 1) + 1) := by
      simp only [nextPowTwo, hvne, if_false, hfls, Nat.shiftLeft_eq, Nat.one_mul]
      rw [Nat.mod_eq_of_lt hpowlt]
      rw [Nat.add_comm]
    rw [hval]
    refine ⟨⟨Nat.log2 (v - 1) + 1, rfl⟩, ?_, ?_⟩
    · have := Nat.lt_log2_self (n := v - 1)
      omega
    · intro q hq hq1
      rcases hq with ⟨j, rfl⟩
      have hlt : v - 1 < 2 ^ j := by omega
      have : Nat.log2 (v - 1) < j := (Nat.log2_lt hu).mpr hlt
      exact Nat.pow_le_pow_right (by omega) (by omega)

end folly

namespace AUM

theorem chain_sentinel (K V : Type) (m : IMap K V) (fuel : Nat) :
    chain K V m fuel 0 = [] := by
  cases fuel <;> simp [chain]

theorem chain_cons (K V : Type) (m : IMap K V) (fuel i : Nat) (hi : i ≠ 0) :
    chain K V m (fuel + 1) i = i :: chain K V m fuel (m.slots i).next := by
  simp [chain, hi]

theorem chain_mem_bounds (K V : Type) (m : IMap K V) (B : Nat)
    (hdec : ∀ j, 1 ≤ j → j < B → (m.slots j).next < j) :
    ∀ (fuel i : Nat), i < B → ∀ j ∈ chain K V m fuel i, 1 ≤ j ∧ j ≤ i := by
  intro fuel
  induction fuel with
  | zero => intro i hi j hj; simp [chain] at hj
  | succ f ih =>
    intro i hi j hj
    by_cases h0 : i = 0
    · subst h0; rw [chain_sentinel] at hj; simp at hj
    · rw [chain_cons K V m f i h0] at hj
      rcases List.mem_cons.mp hj with rfl | hj2
      · exact ⟨Nat.one_le_iff_ne_zero.mpr h0, le_refl _⟩
      · have hnext : (m.slots i).next < i :=
          hdec i (Nat.one_le_iff_ne_zero.mpr h0) hi
        have hb := ih (m.slots i).next (lt_trans hnext hi) j hj2
        exact ⟨hb.1, le_trans hb.2 (le_of_lt hnext)⟩

theorem chain_fuel_irrel (K V : Type) (m : IMap K V) (B : Nat)
    (hdec : ∀ j, 1 ≤ j → j < B → (m.slots j).next < j) :
    ∀ (f1 i f2 : Nat), i < B → i < f1 → i < f2 →
      chain K V m f1 i = chain K V m f2 i := by
  intro f1
  induction f1 with
  | zero => intro i f2 hB h1 h2; omega
  | succ fa ih =>
    intro i f2 hB h1 h2
    obtain ⟨fb, rfl⟩ : ∃ fb, f2 = fb + 1 := ⟨f2 - 1, by omega⟩
    by_cases h0 : i = 0
    · subst h0; rw [chain_sentinel, chain_sentinel]
    · rw [chain_cons K V m fa i h0, chain_cons K V m fb i h0]
      have hnext : (m.slots i).next < i :=
        hdec i (Nat.one_le_iff_ne_zero.mpr h0) hB
      rw [ih (m.slots i).next fb (lt_trans hnext hB) (by omega) (by omega)]

theorem chain_congr (K V : Type) (m1 m2 : IMap K V) (n : Nat)
    (hagree : ∀ j, j < n → m2.slots j = m1.slots j)
    (hdec : ∀ j, 1 ≤ j → j < n → (m1.slots j).next < j) :
    ∀ (fuel i : Nat), i < n → chain K V m2 fuel i = chain K V m1 fuel i := by
  intro fuel
  induction fuel with
  | zero => intro i hi; rfl
  | succ f ih =>
    intro i hi
    by_cases h0 : i = 0
    · subst h0; rw [chain_sentinel, chain_sentinel]
    · rw [chain_cons K V m2 f i h0, chain_cons K V m1 f i h0, hagree i hi]
      have hnext : (m1.slots i).next < i :=
        hdec i (Nat.one_le_iff_ne_zero.mpr h0) hi
      rw [ih (m1.slots i).next (lt_trans hnext hi)]

theorem chain_congr_next (K V : Type) (m1 m2 : IMap K V)
    (hnext : ∀ j, (m2.slots j).next = (m1.slots j).next) :
    ∀ (fuel i : Nat), chain K V m2 fuel i = chain K V m1 fuel i := by
  intro fuel
  induction fuel with
  | zero => intro i; rfl
  | succ f ih =>
    intro i
    by_cases h0 : i = 0
    · subst h0; rw [chain_sentinel, chain_sentinel]
    · rw [chain_cons K V m2 f i h0, chain_cons K V m1 f i h0, hnext i, ih]

theorem searchChain_cons_hit (K V : Type) (m : IMap K V) (k : K) (i : Nat)
    (l : List Nat) (h : slotMatches K V m k i = true) :
    searchChain K V m k (i :: l) = i := by
  simp [searchChain, h]

theorem searchChain_cons_miss (K V : Type) (m : IMap K V) (k : K) (i : Nat)
    (l : List Nat) (h : slotMatches K V m k i = false) :
    searchChain K V m k (i :: l) = searchChain K V m k l := by
  simp [searchChain, h]

theorem searchChain_mem (K V : Type) (m : IMap K V) (k : K) :
    ∀ (l : List Nat) (r : Nat), searchChain K V m k l = r → r ≠ 0 →
      r ∈ l ∧ slotMatches K V m k r = true := by
  intro l
  induction l with
  | nil => intro r h hr; exact absurd h.symm hr
  | cons i rest ih =>
    intro r h hr
    by_cases hm : slotMatches K V m k i = true
    · rw [searchChain_cons_hit K V m k i rest hm] at h
      subst h
      exact ⟨List.mem_cons_self i rest, hm⟩
    · have hm2 : slotMatches K V m k i = false := by
        cases hq : slotMatches K V m k i
        · rfl
        · exact absurd hq hm
      rw [searchChain_cons_miss K V m k i rest hm2] at h
      have := ih r h hr
      exact ⟨List.mem_cons_of_mem i this.1, this.2⟩

theorem searchChain_eq_zero (K V : Type) (m : IMap K V) (k : K) :
    ∀ (l : List Nat), (∀ i ∈ l, 1 ≤ i) → searchChain K V m k l = 0 →
      ∀ i ∈ l, slotMatches K V m k i = false := by
  intro l
  induction l with
  | nil => intro hpos h i hi; simp at hi
  | cons j rest ih =>
    intro hpos h i hi
    by_cases hm : slotMatches K V m k j = true
    · rw [searchChain_cons_hit K V m k j rest hm] at h
      have := hpos j (List.mem_cons_self j rest)
      omega
    · have hm2 : slotMatches K V m k j = false := by
        cases hq : slotMatches K V m k j
        · rfl
        · exact absurd hq hm
      rw [searchChain_cons_miss K V m k j rest hm2] at h
      rcases List.mem_cons.mp hi with rfl | hi2
      · exact hm2
      · exact ih (fun a ha => hpos a (List.mem_cons_of_mem j ha)) h i hi2

theorem searchChain_all_miss (K V : Type) (m : IMap K V) (k : K) :
    ∀ (l : List Nat), (∀ i ∈ l, slotMatches K V m k i = false) →
      searchChain K V m k l = 0 := by
  intro l
  induction l with
  | nil => intro h; rfl
  | cons j rest ih =>
    intro h
    rw [searchChain_cons_miss K V m k j rest (h j (List.mem_cons_self j rest))]
    exact ih fun a ha => h a (List.mem_cons_of_mem j ha)

theorem slotMatches_congr (K V : Type) (m1 m2 : IMap K V) (k : K) (i : Nat)
    (hs : (m2.slots i).state = (m1.slots i).state)
    (hk : (m2.slots i).key = (m1.slots i).key)
    (he : m2.keyEq = m1.keyEq) :
    slotMatches K V m2 k i = slotMatches K V m1 k i := by
  simp [slotMatches, hs, hk, he]

theorem searchChain_congr (K V : Type) (m1 m2 : IMap K V) (k : K) :
    ∀ (l : List Nat),
      (∀ i ∈ l, slotMatches K V m2 k i = slotMatches K V m1 k i) →
      searchChain K V m2 k l = searchChain K V m1 k l := by
  intro l
  induction l with
  | nil => intro h; rfl
  | cons j rest ih =>
    intro h
    have hj := h j (List.mem_cons_self j rest)
    have hrest := ih fun a ha => h a (List.mem_cons_of_mem j ha)
    by_cases hm : slotMatches K V m1 k j = true
    · rw [searchChain_cons_hit K V m1 k j rest hm,
        searchChain_cons_hit K V m2 k j rest (hj.trans hm)]
    · have hm2 : slotMatches K V m1 k j = false := by
        cases hq : slotMatches K V m1 k j
        · rfl
        · exact absurd hq hm
      rw [searchChain_cons_miss K V m1 k j rest hm2,
        searchChain_cons_miss K V m2 k j rest (hj.trans hm2), hrest]

theorem emplace_found (K V : Type) (m : IMap K V) (k : K) (v : V)
    (h : find K V m k ≠ 0) :
    emplace K V m k v = Except.ok (m, find K V m k, false) := by
  simp [emplace, h]

theorem emplace_fresh (K V : Type) (m : IMap K V) (k : K) (v : V)
    (h : find K V m k = 0) (hcap : m.bump < m.slotCount) :
    emplace K V m k v = Except.ok (insertFresh K V m k v, m.bump, true) := by
  simp [emplace, h, hcap]

theorem emplace_full (K V : Type) (m : IMap K V) (k : K) (v : V)
    (h : find K V m k = 0) (hcap : ¬ m.bump < m.slotCount) :
    emplace K V m k v = Except.error EmplaceFailure.capacityExhausted := by
  simp [emplace, h, hcap]

theorem emplace_ok_cases (K V : Type) (m m2 : IMap K V) (k : K) (v : V)
    (i : Nat) (ins : Bool)
    (h : emplace K V m k v = Except.ok (m2, i, ins)) :
    (find K V m k = i ∧ i ≠ 0 ∧ m2 = m ∧ ins = false) ∨
    (find K V m k = 0 ∧ m.bump < m.slotCount ∧
      m2 = insertFresh K V m k v ∧ i = m.bump ∧ ins = true) := by
  by_cases hf : find K V m k ≠ 0
  · left
    have h2 := (emplace_found K V m k v hf).symm.trans h
    simp only [Except.ok.injEq, Prod.mk.injEq] at h2
    exact ⟨h2.2.1, h2.2.1 ▸ hf, h2.1.symm, h2.2.2.symm⟩
  · have hf0 : find K V m k = 0 := by omega
    by_cases hcap : m.bump < m.slotCount
    · right
      have h2 := (emplace_fresh K V m k v hf0 hcap).symm.trans h
      simp only [Except.ok.injEq, Prod.mk.injEq] at h2
      exact ⟨hf0, hcap, h2.1.symm, h2.2.1.symm, h2.2.2.symm⟩
    · have h2 := (emplace_full K V m k v hf0 hcap).symm.trans h
      exact absurd h2 (by simp)

theorem find_mkEmpty (K V : Type) (S : Nat) (H : K → Nat) (E : K → K → Bool)
    (k : K) : find K V (mkEmpty K V S H E) k = 0 := by
  simp [find, bucketChain, mkEmpty, chain_sentinel, searchChain]

theorem WF_mkEmpty (K V : Type) (S : Nat) (H : K → Nat) (E : K → K → Bool)
    (hS : 0 < S) : WF K V (mkEmpty K V S H E) := by
  refine ⟨hS, le_refl 1, hS, ?_, ?_, ?_, ?_, ?_, ?_, ?_, ?_⟩
  · intro i _; rfl
  · intro i h1 h2; exact absurd (show i < 1 from h2) (by omega)
  · intro i h1 h2; exact absurd (show i < 1 from h2) (by omega)
  · intro i h1 h2; exact absurd (show i < 1 from h2) (by omega)
  · intro i h1 h2; exact absurd (show i < 1 from h2) (by omega)
  · intro b; exact Nat.one_pos
  · intro i h1 h2; exact absurd (show i < 1 from h2) (by omega)
  · intro i j ki kj h1 h2
    exact absurd (show i < 1 from h2) (by omega)

theorem linked_bounds (K V : Type) (m : IMap K V) (hWF : WF K V m) (i : Nat)
    (h : (m.slots i).state = SlotState.linked) : 1 ≤ i ∧ i < m.bump := by
  rcases Nat.lt_or_ge i 1 with h1 | h1
  · have h0 : i = 0 := by omega
    rw [hWF.unalloc i (Or.inl h0)] at h
    exact SlotState.noConfusion h
  rcases Nat.lt_or_ge i m.bump with h2 | h2
  · exact ⟨h1, h2⟩
  · rw [hWF.unalloc i (Or.inr h2)] at h
    exact SlotState.noConfusion h

theorem slotMatches_true_elim (K V : Type) (m : IMap K V) (k : K) (i : Nat)
    (h : slotMatches K V m k i = true) :
    (m.slots i).state = SlotState.linked ∧
    ∃ ki, (m.slots i).key = some ki ∧ m.keyEq ki k = true := by
  unfold slotMatches at h
  simp only [Bool.and_eq_true] at h
  obtain ⟨h1, h2⟩ := h
  constructor
  · cases hs : (m.slots i).state <;> rw [hs] at h1 <;> simp at h1
  · cases hk : (m.slots i).key with
    | none => rw [hk] at h2; simp at h2
    | some ki => rw [hk] at h2; exact ⟨ki, rfl, h2⟩

theorem slotMatches_intro (K V : Type) (m : IMap K V) (k : K) (i : Nat)
    (ki : K) (hs : (m.slots i).state = SlotState.linked)
    (hk : (m.slots i).key = some ki) (he : m.keyEq ki k = true) :
    slotMatches K V m k i = true := by
  simp [slotMatches, hs, hk, he]

theorem no_match_of_find_zero (K V : Type) (m : IMap K V) (k : K)
    (hWF : WF K V m) (good : GoodFns K m.hash m.keyEq)
    (hfind : find K V m k = 0) (j : Nat) (hj1 : 1 ≤ j) (hj2 : j < m.bump)
    (kj : K) (hkey : (m.slots j).key = some kj)
    (heq : m.keyEq kj k = true) : False := by
  have hbkt : slotKeyBucket K V m j = bucketOf K V m k := by
    simp [slotKeyBucket, bucketOf, hkey, good.compat kj k heq]
  have hmem : j ∈ bucketChain K V m (bucketOf K V m k) := by
    rw [← hbkt]; exact hWF.complete j hj1 hj2
  have hpos : ∀ i ∈ bucketChain K V m (bucketOf K V m k), 1 ≤ i := by
    intro i hi
    exact (chain_mem_bounds K V m m.bump hWF.next_lt m.slotCount
      (m.heads (bucketOf K V m k)) (hWF.head_lt _) i hi).1
  have hmiss := searchChain_eq_zero K V m k _ hpos hfind j hmem
  have hhit := slotMatches_intro K V m k j kj
    (hWF.alloc_state j hj1 hj2) hkey heq
  rw [hhit] at hmiss
  exact absurd hmiss (by decide)

theorem bucketChain_insertFresh_same (K V : Type) (m : IMap K V) (k : K)
    (v : V) (hWF : WF K V m) (hcap : m.bump < m.slotCount) :
    bucketChain K V (insertFresh K V m k v) (bucketOf K V m k) =
      m.bump :: bucketChain K V m (bucketOf K V m k) := by
  have hb1 : 1 ≤ m.bump := hWF.bump_pos
  have hhd : m.heads (bucketOf K V m k) < m.bump := hWF.head_lt _
  have hS1 : m.slotCount = (m.slotCount - 1) + 1 := by omega
  have hhead : (insertFresh K V m k v).heads (bucketOf K V m k) = m.bump := by
    simp [insertFresh]
  have hnext : ((insertFresh K V m k v).slots m.bump).next =
      m.heads (bucketOf K V m k) := by
    simp [insertFresh]
  have hagree : ∀ j, j < m.bump →
      (insertFresh K V m k v).slots j = m.slots j := by
    intro j hj
    simp [insertFresh, Nat.ne_of_lt hj]
  have hSC : (insertFresh K V m k v).slotCount = m.slotCount := rfl
  unfold bucketChain
  rw [hSC, hhead, hS1,
    chain_cons K V (insertFresh K V m k v) (m.slotCount - 1) m.bump (by omega),
    hnext]
  have h1 : chain K V (insertFresh K V m k v) (m.slotCount - 1)
      (m.heads (bucketOf K V m k)) =
      chain K V m (m.slotCount - 1) (m.heads (bucketOf K V m k)) :=
    chain_congr K V m (insertFresh K V m k v) m.bump hagree hWF.next_lt
      (m.slotCount - 1) _ hhd
  have h2 : chain K V m (m.slotCount - 1) (m.heads (bucketOf K V m k)) =
      chain K V m ((m.slotCount - 1) + 1) (m.heads (bucketOf K V m k)) :=
    chain_fuel_irrel K V m m.bump hWF.next_lt (m.slotCount - 1) _
      ((m.slotCount - 1) + 1) hhd (by omega) (by omega)
  rw [h1, h2]

theorem bucketChain_insertFresh_other (K V : Type) (m : IMap K V) (k : K)
    (v : V) (hWF : WF K V m) (b2 : Nat) (hb : b2 ≠ bucketOf K V m k) :
    bucketChain K V (insertFresh K V m k v) b2 = bucketChain K V m b2 := by
  have hhead : (insertFresh K V m k v).heads b2 = m.heads b2 := by
    simp [insertFresh, hb]
  have hagree : ∀ j, j < m.bump →
      (insertFresh K V m k v).slots j = m.slots j := by
    intro j hj
    simp [insertFresh, Nat.ne_of_lt hj]
  unfold bucketChain
  rw [hhead]
  exact chain_congr K V m (insertFresh K V m k v) m.bump hagree hWF.next_lt
    m.slotCount (m.heads b2) (hWF.head_lt _)

theorem bucketChain_mem_lt_bump (K V : Type) (m : IMap K V) (hWF : WF K V m)
    (b : Nat) : ∀ j ∈ bucketChain K V m b, 1 ≤ j ∧ j < m.bump := by
  intro j hj
  have := chain_mem_bounds K V m m.bump hWF.next_lt m.slotCount (m.heads b)
    (hWF.head_lt b) j hj
  exact ⟨this.1, lt_of_le_of_lt this.2 (hWF.head_lt b)⟩

theorem searchChain_insertFresh_old (K V : Type) (m : IMap K V) (k : K)
    (v : V) (hWF : WF K V m) (k2 : K) (b : Nat) :
    searchChain K V (insertFresh K V m k v) k2 (bucketChain K V m b) =
      searchChain K V m k2 (bucketChain K V m b) := by
  apply searchChain_congr
  intro i hi
  have hb := bucketChain_mem_lt_bump K V m hWF b i hi
  have hagree : (insertFresh K V m k v).slots i = m.slots i := by
    simp [insertFresh, Nat.ne_of_lt hb.2]
  exact slotMatches_congr K V m (insertFresh K V m k v) k2 i
    (by rw [hagree]) (by rw [hagree]) rfl

theorem find_insertFresh_self (K V : Type) (m : IMap K V) (k : K) (v : V)
    (good : GoodFns K m.hash m.keyEq) (hWF : WF K V m)
    (hcap : m.bump < m.slotCount) (k2 : K) (heq : m.keyEq k k2 = true) :
    find K V (insertFresh K V m k v) k2 = m.bump := by
  have hbkt : bucketOf K V (insertFresh K V m k v) k2 = bucketOf K V m k := by
    simp [bucketOf, insertFresh, good.compat k k2 heq]
  have hmatch : slotMatches K V (insertFresh K V m k v) k2 m.bump = true := by
    apply slotMatches_intro K V (insertFresh K V m k v) k2 m.bump k
    · simp [insertFresh]
    · simp [insertFresh]
    · show m.keyEq k k2 = true
      exact heq
  unfold find
  rw [hbkt, bucketChain_insertFresh_same K V m k v hWF hcap,
    searchChain_cons_hit K V (insertFresh K V m k v) k2 m.bump _ hmatch]

theorem find_insertFresh_ne (K V : Type) (m : IMap K V) (k : K) (v : V)
    (hWF : WF K V m) (hcap : m.bump < m.slotCount) (k2 : K)
    (hne : m.keyEq k k2 = false) :
    find K V (insertFresh K V m k v) k2 = find K V m k2 := by
  have hbkt : bucketOf K V (insertFresh K V m k v) k2 = bucketOf K V m k2 :=
    rfl
  by_cases hb : bucketOf K V m k2 = bucketOf K V m k
  · have hmiss : slotMatches K V (insertFresh K V m k v) k2 m.bump = false := by
      unfold slotMatches
      have hkey : ((insertFresh K V m k v).slots m.bump).key = some k := by
        simp [insertFresh]
      have heqf : (insertFresh K V m k v).keyEq = m.keyEq := rfl
      rw [hkey, heqf]
      simp [hne]
    unfold find
    rw [hbkt, hb, bucketChain_insertFresh_same K V m k v hWF hcap,
      searchChain_cons_miss K V (insertFresh K V m k v) k2 m.bump _ hmiss,
      searchChain_insertFresh_old K V m k v hWF k2, ← hb]
  · unfold find
    rw [hbkt, bucketChain_insertFresh_other K V m k v hWF _ hb,
      searchChain_insertFresh_old K V m k v hWF k2]

theorem WF_insertFresh (K V : Type) (m : IMap K V) (k : K) (v : V)
    (good : GoodFns K m.hash m.keyEq) (hWF : WF K V m)
    (hfind : find K V m k = 0) (hcap : m.bump < m.slotCount) :
    WF K V (insertFresh K V m k v) := by
  have hb1 : 1 ≤ m.bump := hWF.bump_pos
  have hslotn : (insertFresh K V m k v).slots m.bump =
      ⟨SlotState.linked, m.heads (bucketOf K V m k), some k, some v⟩ := by
    simp [insertFresh]
  have hother : ∀ i, i ≠ m.bump →
      (insertFresh K V m k v).slots i = m.slots i := by
    intro i hi
    simp [insertFresh, hi]
  have hbump : (insertFresh K V m k v).bump = m.bump + 1 := rfl
  have hSC : (insertFresh K V m k v).slotCount = m.slotCount := rfl
  have hhash : (insertFresh K V m k v).hash = m.hash := rfl
  have hkeq : (insertFresh K V m k v).keyEq = m.keyEq := rfl
  refine ⟨?_, ?_, ?_, ?_, ?_, ?_, ?_, ?_, ?_, ?_, ?_⟩
  · rw [hSC]; exact hWF.pos
  · rw [hbump]; omega
  · rw [hbump, hSC]; omega
  · intro i hi
    rw [hbump] at hi
    have hne : i ≠ m.bump := by omega
    rw [hother i hne]
    exact hWF.unalloc i (by omega)
  · intro i hi1 hi2
    rw [hbump] at hi2
    by_cases hin : i = m.bump
    · subst hin; rw [hslotn]
    · rw [hother i hin]
      exact hWF.alloc_state i hi1 (by omega)
  · intro i hi1 hi2
    rw [hbump] at hi2
    by_cases hin : i = m.bump
    · subst hin; rw [hslotn]; exact ⟨k, rfl⟩
    · rw [hother i hin]
      exact hWF.alloc_key i hi1 (by omega)
  · intro i hi1 hi2
    rw [hbump] at hi2
    by_cases hin : i = m.bump
    · subst hin; rw [hslotn]; exact ⟨v, rfl⟩
    · rw [hother i hin]
      exact hWF.alloc_val i hi1 (by omega)
  · intro i hi1 hi2
    rw [hbump] at hi2
    by_cases hin : i = m.bump
    · subst hin; rw [hslotn]
      exact hWF.head_lt _
    · rw [hother i hin]
      exact hWF.next_lt i hi1 (by omega)
  · intro b
    rw [hbump]
    by_cases hbb : b = bucketOf K V m k
    · have : (insertFresh K V m k v).heads b = m.bump := by
        simp [insertFresh, hbb]
      omega
    · have : (insertFresh K V m k v).heads b = m.heads b := by
        simp [insertFresh, hbb]
      have h2 := hWF.head_lt b
      omega
  · intro i hi1 hi2
    rw [hbump] at hi2
    by_cases hin : i = m.bump
    · subst hin
      have hkb : slotKeyBucket K V (insertFresh K V m k v) m.bump =
          bucketOf K V m k := by
        simp [slotKeyBucket, hslotn, hSC, hhash, bucketOf]
      rw [hkb, bucketChain_insertFresh_same K V m k v hWF hcap]
      exact List.mem_cons_self _ _
    · have hilt : i < m.bump := by omega
      have hkb : slotKeyBucket K V (insertFresh K V m k v) i =
          slotKeyBucket K V m i := by
        unfold slotKeyBucket
        rw [hother i hin, hhash, hSC]
      rw [hkb]
      have hold := hWF.complete i hi1 hilt
      by_cases hbb : slotKeyBucket K V m i = bucketOf K V m k
      · rw [hbb, bucketChain_insertFresh_same K V m k v hWF hcap]
        exact List.mem_cons_of_mem _ (hbb ▸ hold)
      · rw [bucketChain_insertFresh_other K V m k v hWF _ hbb]
        exact hold
  · intro i j ki kj hi1 hi2 hj1 hj2 hki hkj heq
    rw [hbump] at hi2 hj2
    rw [hkeq] at heq
    by_cases hin : i = m.bump <;> by_cases hjn : j = m.bump
    · rw [hin, hjn]
    · exfalso
      subst hin
      rw [hslotn] at hki
      have hkik : ki = k := by
        injection hki with h
        exact h.symm
      subst hkik
      rw [hother j hjn] at hkj
      have hjlt : j < m.bump := by omega
      have heq2 : m.keyEq kj ki = true := by rw [good.symm kj ki]; exact heq
      exact no_match_of_find_zero K V m ki hWF good hfind j hj1 hjlt kj
        hkj heq2
    · exfalso
      subst hjn
      rw [hslotn] at hkj
      have hkjk : kj = k := by
        injection hkj with h
        exact h.symm
      subst hkjk
      rw [hother i hin] at hki
      have hilt : i < m.bump := by omega
      exact no_match_of_find_zero K V m kj hWF good hfind i hi1 hilt ki
        hki heq
    · rw [hother i hin] at hki
      rw [hother j hjn] at hkj
      exact hWF.uniq i j ki kj hi1 (by omega) hj1 (by omega) hki hkj heq

theorem reachable_fns (K V : Type) (H : K → Nat) (E : K → K → Bool)
    (m : IMap K V) (h : Reachable K V H E m) : m.hash = H ∧ m.keyEq = E := by
  induction h with
  | init S hS => exact ⟨rfl, rfl⟩
  | step m k v m2 i ins hR hemp ih =>
    rcases emplace_ok_cases K V m m2 k v i ins hemp with
      ⟨_, _, rfl, _⟩ | ⟨_, _, rfl, _, _⟩
    · exact ih
    · exact ih

theorem reachable_WF (K V : Type) (H : K → Nat) (E : K → K → Bool)
    (good : GoodFns K H E) (m : IMap K V) (h : Reachable K V H E m) :
    WF K V m := by
  induction h with
  | init S hS => exact WF_mkEmpty K V S H E hS
  | step m k v m2 i ins hR hemp ih =>
    rcases emplace_ok_cases K V m m2 k v i ins hemp with
      ⟨_, _, rfl, _⟩ | ⟨hfind, hcap, rfl, _, _⟩
    · exact ih
    · have hfns := reachable_fns K V H E m hR
      refine WF_insertFresh K V m k v ?_ ih hfind hcap
      rw [hfns.1, hfns.2]
      exact good

theorem evolves_reachable (K V : Type) (H : K → Nat) (E : K → K → Bool)
    (m m2 : IMap K V) (hR : Reachable K V H E m)
    (hev : Evolves K V m m2) : Reachable K V H E m2 := by
  induction hev with
  | refl => exact hR
  | step m1 mb k v i ins hev hemp ih =>
    exact Reachable.step m1 k v mb i ins ih hemp

theorem find_emplace_stable (K V : Type) (m m2 : IMap K V)
    (good : GoodFns K m.hash m.keyEq) (hWF : WF K V m) (k : K) (i : Nat)
    (hi : find K V m k = i) (hne0 : i ≠ 0) (k2 : K) (v2 : V) (j : Nat)
    (ins : Bool) (hstep : emplace K V m k2 v2 = Except.ok (m2, j, ins)) :
    find K V m2 k = i ∧ m2.slots i = m.slots i := by
  rcases emplace_ok_cases K V m m2 k2 v2 j ins hstep with
    ⟨_, _, rfl, _⟩ | ⟨hfind2, hcap, rfl, _, _⟩
  · exact ⟨hi, rfl⟩
  · have hmem := searchChain_mem K V m k _ i hi hne0
    obtain ⟨hlink, ki, hkey, hkeq⟩ := slotMatches_true_elim K V m k i hmem.2
    have hbounds := linked_bounds K V m hWF i hlink
    have hEf : m.keyEq k2 k = false := by
      cases hc : m.keyEq k2 k
      · rfl
      · exfalso
        have h1 : m.keyEq k k2 = true := by rw [good.symm k k2]; exact hc
        have h2 : m.keyEq ki k2 = true := good.trans ki k k2 hkeq h1
        exact no_match_of_find_zero K V m k2 hWF good hfind2 i hbounds.1
          hbounds.2 ki hkey h2
    constructor
    · rw [find_insertFresh_ne K V m k2 v2 hWF hcap k hEf]
      exact hi
    · simp [insertFresh, Nat.ne_of_lt hbounds.2]

theorem find_evolves_stable (K V : Type) (H : K → Nat) (E : K → K → Bool)
    (good : GoodFns K H E) (m m2 : IMap K V) (hR : Reachable K V H E m)
    (hev : Evolves K V m m2) (k : K) (i : Nat) (hi : find K V m k = i)
    (hne0 : i ≠ 0) : find K V m2 k = i ∧ m2.slots i = m.slots i := by
  induction hev with
  | refl => exact ⟨hi, rfl⟩
  | step m1 mb k2 v2 j ins hev hstep ih =>
    have hR1 : Reachable K V H E m1 := evolves_reachable K V H E m m1 hR hev
    have hfns := reachable_fns K V H E m1 hR1
    have hWF1 : WF K V m1 := reachable_WF K V H E good m1 hR1
    have good1 : GoodFns K m1.hash m1.keyEq := by
      rw [hfns.1, hfns.2]; exact good
    have h1 := ih
    have h2 := find_emplace_stable K V m1 mb good1 hWF1 k i h1.1 hne0 k2 v2
      j ins hstep
    exact ⟨h2.1, h2.2.trans h1.2⟩

theorem emplaceSeq_cons_ok (K V : Type) (m m2 : IMap K V) (k : K) (v : V)
    (i : Nat) (ins : Bool) (l : List (K × V))
    (h : emplace K V m k v = Except.ok (m2, i, ins)) :
    emplaceSeq K V m ((k, v) :: l) = emplaceSeq K V m2 l := by
  simp [emplaceSeq, h]

theorem emplaceSeq_cons_err (K V : Type) (m : IMap K V) (k : K) (v : V)
    (e : EmplaceFailure) (l : List (K × V))
    (h : emplace K V m k v = Except.error e) :
    emplaceSeq K V m ((k, v) :: l) = SeqResult.failed m k e := by
  simp [emplaceSeq, h]

theorem emplaceSeq_append (K V : Type) (l1 : List (K × V)) :
    ∀ (m : IMap K V) (l2 : List (K × V)),
      emplaceSeq K V m (l1 ++ l2) =
        match emplaceSeq K V m l1 with
        | SeqResult.ok m2 => emplaceSeq K V m2 l2
        | SeqResult.failed m0 k0 e => SeqResult.failed m0 k0 e := by
  induction l1 with
  | nil => intro m l2; rfl
  | cons p rest ih =>
    intro m l2
    obtain ⟨k, v⟩ := p
    cases hemp : emplace K V m k v with
    | ok t =>
      obtain ⟨m2, i, ins⟩ := t
      rw [List.cons_append, emplaceSeq_cons_ok K V m m2 k v i ins _ hemp,
        emplaceSeq_cons_ok K V m m2 k v i ins rest hemp, ih m2 l2]
    | error e =>
      rw [List.cons_append, emplaceSeq_cons_err K V m k v e _ hemp,
        emplaceSeq_cons_err K V m k v e rest hemp]

theorem emplaceSeq_all_fresh (K V : Type) (H : K → Nat) (E : K → K → Bool)
    (good : GoodFns K H E) :
    ∀ (l : List (K × V)) (m : IMap K V), WF K V m → m.hash = H →
      m.keyEq = E →
      (∀ p ∈ l, find K V m p.1 = 0) →
      List.Pairwise (fun p q => E p.1 q.1 = false) l →
      l.length ≤ m.slotCount - m.bump →
      ∃ m2, emplaceSeq K V m l = SeqResult.ok m2 ∧
        WF K V m2 ∧ m2.hash = H ∧ m2.keyEq = E ∧
        m2.slotCount = m.slotCount ∧ m2.bump = m.bump + l.length ∧
        (∀ j, j < m.bump → m2.slots j = m.slots j) ∧
        (∀ k2, (∀ p ∈ l, E p.1 k2 = false) →
          find K V m2 k2 = find K V m k2) ∧
        (∀ p ∈ l, 1 ≤ find K V m2 p.1 ∧
          (m2.slots (find K V m2 p.1)).key = some p.1 ∧
          (m2.slots (find K V m2 p.1)).val = some p.2) := by
  intro l
  induction l with
  | nil =>
    intro m hWF hh he hfresh hpw hlen
    exact ⟨m, rfl, hWF, hh, he, rfl, by simp, fun j hj => rfl,
      fun k2 h2 => rfl, fun p hp => absurd hp (List.not_mem_nil p)⟩
  | cons p rest ih =>
    obtain ⟨k, v⟩ := p
    intro m hWF hh he hfresh hpw hlen
    have good_m : GoodFns K m.hash m.keyEq := by rw [hh, he]; exact good
    have hfk : find K V m k = 0 := hfresh (k, v) (List.mem_cons_self _ _)
    have hlen2 : rest.length + 1 ≤ m.slotCount - m.bump := by
      rw [List.length_cons] at hlen
      exact hlen
    have hcap : m.bump < m.slotCount := by omega
    have hemp : emplace K V m k v =
        Except.ok (insertFresh K V m k v, m.bump, true) :=
      emplace_fresh K V m k v hfk hcap
    have hWF1 : WF K V (insertFresh K V m k v) :=
      WF_insertFresh K V m k v good_m hWF hfk hcap
    have hpw2 := List.pairwise_cons.mp hpw
    have hfresh1 : ∀ q ∈ rest, find K V (insertFresh K V m k v) q.1 = 0 := by
      intro q hq
      have hEkq : m.keyEq k q.1 = false := by rw [he]; exact hpw2.1 q hq
      rw [find_insertFresh_ne K V m k v hWF hcap q.1 hEkq]
      exact hfresh q (List.mem_cons_of_mem _ hq)
    have hb1 : (insertFresh K V m k v).bump = m.bump + 1 := rfl
    have hs1 : (insertFresh K V m k v).slotCount = m.slotCount := rfl
    have hlen1 : rest.length ≤
        (insertFresh K V m k v).slotCount - (insertFresh K V m k v).bump := by
      rw [hb1, hs1]
      omega
    obtain ⟨m2, hrun, hWF2, hh2, he2, hSC2, hbump2, hslots2, hstable2,
      helts2⟩ := ih (insertFresh K V m k v) hWF1 hh he hfresh1 hpw2.2 hlen1
    have hselfkey : ∀ q ∈ rest, E q.1 k = false := by
      intro q hq
      rw [good.symm q.1 k]
      exact hpw2.1 q hq
    have hfindk : find K V m2 k = m.bump := by
      rw [hstable2 k hselfkey]
      exact find_insertFresh_self K V m k v good_m hWF hcap k (by
        rw [he]; exact good.refl k)
    refine ⟨m2, ?_, hWF2, hh2, he2, ?_, ?_, ?_, ?_, ?_⟩
    · rw [emplaceSeq_cons_ok K V m (insertFresh K V m k v) k v m.bump true
        rest hemp]
      exact hrun
    · rw [hSC2, hs1]
    · rw [hbump2, hb1, List.length_cons]
      omega
    · intro j hj
      rw [hslots2 j (by rw [hb1]; omega)]
      simp [insertFresh, Nat.ne_of_lt hj]
    · intro k2 hk2
      have hEkk2 : m.keyEq k k2 = false := by
        rw [he]; exact hk2 (k, v) (List.mem_cons_self _ _)
      rw [hstable2 k2 (fun q hq => hk2 q (List.mem_cons_of_mem _ hq))]
      exact find_insertFresh_ne K V m k v hWF hcap k2 hEkk2
    · intro q hq
      rcases List.mem_cons.mp hq with heqq | hq2
      · rw [heqq]
        rw [hfindk]
        have hsl : m2.slots m.bump = (insertFresh K V m k v).slots m.bump :=
          hslots2 m.bump (by rw [hb1]; omega)
        rw [hsl]
        refine ⟨hWF.bump_pos, ?_, ?_⟩
        · simp [insertFresh]
        · simp [insertFresh]
      · exact helts2 q hq2

theorem natBeq_eq (a b : Nat) (h : natBeq a b = true) : a = b :=
  Nat.eq_of_beq_eq_true h

theorem natBeq_false (a b : Nat) (h : a ≠ b) : natBeq a b = false := by
  cases hh : natBeq a b
  · rfl
  · exact absurd (natBeq_eq a b hh) h

theorem goodNat : GoodFns Nat natHash natBeq := by
  refine ⟨?_, ?_, ?_, ?_⟩
  · intro a b h
    rw [natBeq_eq a b h]
  · intro a
    exact Nat.beq_refl a
  · intro a b
    by_cases h : a = b
    · subst h; rfl
    · rw [natBeq_false a b h, natBeq_false b a (Ne.symm h)]
  · intro a b c h1 h2
    have e1 := natBeq_eq a b h1
    have e2 := natBeq_eq b c h2
    subst e1; subst e2
    exact Nat.beq_refl a

theorem mutateVal_state (K V : Type) (m : IMap K V) (i : Nat) (f : V → V)
    (j : Nat) :
    ((mutateVal K V m i f).slots j).state = (m.slots j).state := by
  by_cases h : j = i <;> simp [mutateVal, h]

theorem mutateVal_key (K V : Type) (m : IMap K V) (i : Nat) (f : V → V)
    (j : Nat) : ((mutateVal K V m i f).slots j).key = (m.slots j).key := by
  by_cases h : j = i <;> simp [mutateVal, h]

theorem mutateVal_next (K V : Type) (m : IMap K V) (i : Nat) (f : V → V)
    (j : Nat) : ((mutateVal K V m i f).slots j).next = (m.slots j).next := by
  by_cases h : j = i <;> simp [mutateVal, h]

theorem mutateVal_val_self (K V : Type) (m : IMap K V) (i : Nat)
    (f : V → V) :
    ((mutateVal K V m i f).slots i).val = Option.map f (m.slots i).val := by
  simp [mutateVal]

theorem mutateVal_slots_other (K V : Type) (m : IMap K V) (i : Nat)
    (f : V → V) (j : Nat) (h : j ≠ i) :
    (mutateVal K V m i f).slots j = m.slots j := by
  simp [mutateVal, h]

theorem find_mutateVal (K V : Type) (m : IMap K V) (i : Nat) (f : V → V)
    (k2 : K) : find K V (mutateVal K V m i f) k2 = find K V m k2 := by
  unfold find
  have hc : bucketChain K V (mutateVal K V m i f)
      (bucketOf K V (mutateVal K V m i f) k2) =
      bucketChain K V m (bucketOf K V m k2) := by
    unfold bucketChain
    exact chain_congr_next K V m (mutateVal K V m i f)
      (mutateVal_next K V m i f) m.slotCount (m.heads (bucketOf K V m k2))
  rw [hc]
  apply searchChain_congr
  intro a ha
  exact slotMatches_congr K V m (mutateVal K V m i f) k2 a
    (mutateVal_state K V m i f a) (mutateVal_key K V m i f a) rfl

theorem pairwise_range_pairs (n : Nat) (g : Nat → Bool) :
    List.Pairwise (fun p q => natBeq p.1 q.1 = false)
      ((List.range n).map (fun i => (i, g i))) := by
  exact List.Pairwise.map (fun i => (i, g i))
    (fun a b hab => natBeq_false a b (Nat.ne_of_lt hab))
    (List.pairwise_lt_range n)

set_option maxRecDepth 4000 in
theorem capKeys_split :
    capKeys = capKeysA ++ ((5000, false) :: capKeysTail) := by
  unfold capKeys capKeysA capKeysTail
  rw [show (6000 : Nat) = 5000 + 1000 from rfl, List.range_add 5000 1000,
    List.map_append]
  congr 1

theorem capMap_slotCount : capMap.slotCount = 5001 := rfl

theorem capMap_bump : capMap.bump = 1 := rfl

theorem capacity_scenario :
    ∃ mA, emplaceSeq Nat Bool capMap capKeys =
        SeqResult.failed mA 5000 EmplaceFailure.capacityExhausted ∧
      ∀ i, i < 5000 → 1 ≤ find Nat Bool mA i ∧
        (mA.slots (find Nat Bool mA i)).key = some i ∧
        (mA.slots (find Nat Bool mA i)).val = some false := by
  have hWF0 : WF Nat Bool capMap :=
    WF_mkEmpty Nat Bool (derivedSlotCount 5000 1 1) natHash natBeq
      (by rw [show derivedSlotCount 5000 1 1 = 5001 from rfl]; omega)
  have hfresh : ∀ p ∈ capKeysA, find Nat Bool capMap p.1 = 0 :=
    fun p hp => find_mkEmpty Nat Bool (derivedSlotCount 5000 1 1) natHash
      natBeq p.1
  have hpw : List.Pairwise (fun p q => natBeq p.1 q.1 = false) capKeysA :=
    pairwise_range_pairs 5000 (fun x => false)
  have hlenA : capKeysA.length = 5000 := by
    simp [capKeysA]
  have hlen : capKeysA.length ≤ capMap.slotCount - capMap.bump := by
    rw [hlenA, capMap_slotCount, capMap_bump]
  obtain ⟨mA, hrun, hWF2, hh2, he2, hSC2, hbump2, hslots2, hstable2,
    helts2⟩ := emplaceSeq_all_fresh Nat Bool natHash natBeq goodNat capKeysA
      capMap hWF0 rfl rfl hfresh hpw hlen
  have hfull : ¬ mA.bump < mA.slotCount := by
    rw [hbump2, hSC2, hlenA, capMap_slotCount, capMap_bump]
    omega
  have hf5000 : find Nat Bool mA 5000 = 0 := by
    rw [hstable2 5000 ?hmiss]
    · exact find_mkEmpty Nat Bool (derivedSlotCount 5000 1 1) natHash
        natBeq 5000
    case hmiss =>
      intro p hp
      obtain ⟨a, ha, hpa⟩ := List.mem_map.mp hp
      have halt : a < 5000 := List.mem_range.mp ha
      rw [← hpa]
      exact natBeq_false a 5000 (by omega)
  have hfail : emplace Nat Bool mA 5000 false =
      Except.error EmplaceFailure.capacityExhausted :=
    emplace_full Nat Bool mA 5000 false hf5000 hfull
  refine ⟨mA, ?_, ?_⟩
  · rw [capKeys_split,
      emplaceSeq_append Nat Bool capKeysA capMap ((5000, false) :: capKeysTail),
      hrun]
    exact emplaceSeq_cons_err Nat Bool mA 5000 false
      EmplaceFailure.capacityExhausted capKeysTail hfail
  · intro i hi
    have hmem : ((i : Nat), false) ∈ capKeysA :=
      List.mem_map.mpr ⟨i, List.mem_range.mpr hi, rfl⟩
    exact helts2 (i, false) hmem

/-- C1: for every map and key K, if the map already contains an entry whose
key equals K under the equality predicate, `emplace(K, V)` returns (a
reference to) that existing entry together with the flag `false` and leaves
the map unchanged; otherwise (capacity permitting) it inserts `(K, V)` into
the freshly claimed slot and returns that new slot with the flag `true`,
and a second emplace of the already-present key returns the very same slot
reference with the flag `false`. -/
theorem C1_emplace_semantics (K V : Type) (H : K → Nat) (E : K → K → Bool)
    (good : GoodFns K H E) (m : IMap K V) (hR : Reachable K V H E m)
    (k : K) (v : V) :
    (find K V m k ≠ 0 →
      emplace K V m k v = Except.ok (m, find K V m k, false)) ∧
    (find K V m k = 0 → m.bump < m.slotCount →
      emplace K V m k v =
        Except.ok (insertFresh K V m k v, m.bump, true) ∧
      ((insertFresh K V m k v).slots m.bump).key = some k ∧
      ((insertFresh K V m k v).slots m.bump).val = some v ∧
      find K V (insertFresh K V m k v) k = m.bump) ∧
    (∀ m1 i v2, emplace K V m k v = Except.ok (m1, i, true) →
      emplace K V m1 k v2 = Except.ok (m1, i, false)) := by
  have hfns := reachable_fns K V H E m hR
  have hWF := reachable_WF K V H E good m hR
  have good_m : GoodFns K m.hash m.keyEq := by
    rw [hfns.1, hfns.2]; exact good
  refine ⟨?_, ?_, ?_⟩
  · intro h
    exact emplace_found K V m k v h
  · intro h hcap
    refine ⟨emplace_fresh K V m k v h hcap, by simp [insertFresh],
      by simp [insertFresh], ?_⟩
    exact find_insertFresh_self K V m k v good_m hWF hcap k (good_m.refl k)
  · intro m1 i v2 hemp
    rcases emplace_ok_cases K V m m1 k v i true hemp with
      ⟨hfind, hne, hm1, hins⟩ | ⟨hfind, hcap, hm1, hib, hins⟩
    · exact Bool.noConfusion hins
    · subst hm1
      subst hib
      have hfind1 : find K V (insertFresh K V m k v) k = m.bump :=
        find_insertFresh_self K V m k v good_m hWF hcap k (good_m.refl k)
      have hne1 : find K V (insertFresh K V m k v) k ≠ 0 := by
        have := hWF.bump_pos
        omega
      rw [emplace_found K V (insertFresh K V m k v) k v2 hne1, hfind1]

/-- Witness for C1: in the empty four-slot map, emplacing key 1 inserts it
at slot 1 with the flag `true` and a second emplace of key 1 returns the
same slot 1 with the flag `false`. -/
theorem C1_emplace_semantics_witness :
    emplace Nat Nat wMap 1 5 =
      Except.ok (insertFresh Nat Nat wMap 1 5, 1, true) ∧
    emplace Nat Nat (insertFresh Nat Nat wMap 1 5) 1 6 =
      Except.ok (insertFresh Nat Nat wMap 1 5, 1, false) := by
  have h := C1_emplace_semantics Nat Nat natHash natBeq goodNat wMap
    (Reachable.init 4 (by decide)) 1 5
  have h1 := (h.2.1 (by decide) (by decide)).1
  exact ⟨h1, h.2.2 (insertFresh Nat Nat wMap 1 5) 1 6 h1⟩

/-- C2: in every reachable map state no two distinct LINKED slots hold keys
that are equal under the equality predicate — any two LINKED slots with
equal keys are the same slot (uniqueness invariant, preserved by every
operation: successful and failed emplace calls are the only state changes,
and find and iteration do not modify the map). -/
theorem C2_uniqueness (K V : Type) (H : K → Nat) (E : K → K → Bool)
    (good : GoodFns K H E) (m : IMap K V) (hR : Reachable K V H E m)
    (i j : Nat) (ki kj : K)
    (hLi : (m.slots i).state = SlotState.linked)
    (hLj : (m.slots j).state = SlotState.linked)
    (hki : (m.slots i).key = some ki) (hkj : (m.slots j).key = some kj)
    (heq : E ki kj = true) : i = j := by
  have hWF := reachable_WF K V H E good m hR
  have hfns := reachable_fns K V H E m hR
  have hbi := linked_bounds K V m hWF i hLi
  have hbj := linked_bounds K V m hWF j hLj
  refine hWF.uniq i j ki kj hbi.1 hbi.2 hbj.1 hbj.2 hki hkj ?_
  rw [hfns.2]
  exact heq

/-- Witness for C2: in the reachable map holding only key 7 at slot 1, two
LINKED slots with equal keys are the same slot. -/
theorem C2_uniqueness_witness :
    ((insertFresh Nat Nat wMap 7 3).slots 1).state = SlotState.linked ∧
    ((insertFresh Nat Nat wMap 7 3).slots 1).key = some 7 ∧
    natBeq 7 7 = true ∧ (1 : Nat) = 1 := by
  have hR : Reachable Nat Nat natHash natBeq (insertFresh Nat Nat wMap 7 3) :=
    Reachable.step wMap 7 3 (insertFresh Nat Nat wMap 7 3) 1 true
      (Reachable.init 4 (by decide)) rfl
  refine ⟨by decide, by decide, by decide, ?_⟩
  exact C2_uniqueness Nat Nat natHash natBeq goodNat
    (insertFresh Nat Nat wMap 7 3) hR 1 1 7 7 (by decide) (by decide)
    (by decide) (by decide) (by decide)

/-- C4: the slot index returned by an emplace is exactly what every
subsequent find of that key yields, and the slot (hence the value stored in
it, at its stable location) is untouched by arbitrary later successful
emplace calls. -/
theorem C4_identity_stable (K V : Type) (H : K → Nat) (E : K → K → Bool)
    (good : GoodFns K H E) (m : IMap K V) (hR : Reachable K V H E m)
    (k : K) (v : V) (m1 m2 : IMap K V) (i : Nat) (ins : Bool)
    (hemp : emplace K V m k v = Except.ok (m1, i, ins))
    (hev : Evolves K V m1 m2) :
    i ≠ 0 ∧ find K V m1 k = i ∧ find K V m2 k = i ∧
    m2.slots i = m1.slots i ∧ ∃ w, (m1.slots i).val = some w := by
  have hWF := reachable_WF K V H E good m hR
  have hfns := reachable_fns K V H E m hR
  have good_m : GoodFns K m.hash m.keyEq := by
    rw [hfns.1, hfns.2]; exact good
  have hR1 : Reachable K V H E m1 := Reachable.step m k v m1 i ins hR hemp
  have base : i ≠ 0 ∧ find K V m1 k = i ∧ ∃ w, (m1.slots i).val = some w := by
    rcases emplace_ok_cases K V m m1 k v i ins hemp with
      ⟨hfind, hne, hm1, hins⟩ | ⟨hfind, hcap, hm1, hib, hins⟩
    · subst hm1
      refine ⟨hne, hfind, ?_⟩
      have hm := searchChain_mem K V m1 k _ i hfind hne
      obtain ⟨hlink, ki, hkey, hkeq⟩ := slotMatches_true_elim K V m1 k i hm.2
      have hb := linked_bounds K V m1 hWF i hlink
      exact hWF.alloc_val i hb.1 hb.2
    · subst hm1
      subst hib
      have hb1 := hWF.bump_pos
      refine ⟨by omega, ?_, ?_⟩
      · exact find_insertFresh_self K V m k v good_m hWF hcap k
          (good_m.refl k)
      · exact ⟨v, by simp [insertFresh]⟩
  have hstab := find_evolves_stable K V H E good m1 m2 hR1 hev k i
    base.2.1 base.1
  exact ⟨base.1, base.2.1, hstab.1, hstab.2, base.2.2⟩

/-- Witness for C4: key 1 emplaced at slot 1 of the four-slot map is still
found at slot 1, with its slot untouched, after a later emplace of key 2. -/
theorem C4_identity_stable_witness :
    find Nat Nat (insertFresh Nat Nat (insertFresh Nat Nat wMap 1 10) 2 20)
      1 = 1 ∧
    (insertFresh Nat Nat (insertFresh Nat Nat wMap 1 10) 2 20).slots 1 =
      (insertFresh Nat Nat wMap 1 10).slots 1 := by
  have h := C4_identity_stable Nat Nat natHash natBeq goodNat wMap
    (Reachable.init 4 (by decide)) 1 10 (insertFresh Nat Nat wMap 1 10)
    (insertFresh Nat Nat (insertFresh Nat Nat wMap 1 10) 2 20) 1 true rfl
    (Evolves.step (insertFresh Nat Nat wMap 1 10)
      (insertFresh Nat Nat wMap 1 10)
      (insertFresh Nat Nat (insertFresh Nat Nat wMap 1 10) 2 20) 2 20 2 true
      (Evolves.refl (insertFresh Nat Nat wMap 1 10)) rfl)
  exact ⟨h.2.2.1, h.2.2.2.1⟩

/-- C3: once the bump counter has reached the slot count (every usable slot
claimed), a further emplace of a not-yet-present key fails with
CapacityExhausted and changes nothing; concretely, the map of the
`capacity_exceeded` test (capacity 5000, load factor 1.0) fails at key
i = 5000 ≥ 5000 when fed keys 0 .. 5999, and at that point all 5000
previously inserted keys are still found with their original values. -/
theorem C3_capacity_exhausted :
    (∀ (K V : Type) (m : IMap K V) (k : K) (v : V),
      m.slotCount ≤ m.bump → find K V m k = 0 →
      emplace K V m k v = Except.error EmplaceFailure.capacityExhausted) ∧
    ∃ mA i, emplaceSeq Nat Bool capMap capKeys =
        SeqResult.failed mA i EmplaceFailure.capacityExhausted ∧
      5000 ≤ i ∧
      ∀ j, j < 5000 → find Nat Bool mA j ≠ 0 ∧
        (mA.slots (find Nat Bool mA j)).key = some j ∧
        (mA.slots (find Nat Bool mA j)).val = some false := by
  constructor
  · intro K V m k v hfull hfind
    exact emplace_full K V m k v hfind (by omega)
  · obtain ⟨mA, hrun, hprev⟩ := capacity_scenario
    refine ⟨mA, 5000, hrun, le_refl 5000, ?_⟩
    intro j hj
    have h := hprev j hj
    exact ⟨by omega, h.2.1, h.2.2⟩

/-- Witness for C3: the two-slot map filled by one insert (bump = slot
count) rejects a fresh key with CapacityExhausted. -/
theorem C3_capacity_exhausted_witness :
    (insertFresh Nat Bool wMapB 7 true).slotCount ≤
      (insertFresh Nat Bool wMapB 7 true).bump ∧
    find Nat Bool (insertFresh Nat Bool wMapB 7 true) 3 = 0 ∧
    emplace Nat Bool (insertFresh Nat Bool wMapB 7 true) 3 true =
      Except.error EmplaceFailure.capacityExhausted :=
  ⟨by decide, by decide,
    C3_capacity_exhausted.1 Nat Bool (insertFresh Nat Bool wMapB 7 true) 3
      true (by decide) (by decide)⟩

/-- C6: for every index width W ∈ {16, 32, 64}, construction succeeds
exactly when the derived slot count S satisfies S ≤ 2 ^ W − 1, and on
violation a configuration error is signalled by the constructor itself,
before any map operation can run. -/
theorem C6_construction_bound (K V : Type) (W C lfNum lfDen : Nat)
    (H : K → Nat) (E : K → K → Bool) (hW : W = 16 ∨ W = 32 ∨ W = 64) :
    ((∃ m, construct K V W C lfNum lfDen H E = Except.ok m) ↔
      derivedSlotCount C lfNum lfDen ≤ 2 ^ W - 1) ∧
    (¬ derivedSlotCount C lfNum lfDen ≤ 2 ^ W - 1 →
      construct K V W C lfNum lfDen H E =
        Except.error ConfigError.capacityExceedsIndexWidth) := by
  constructor
  · constructor
    · intro hok
      by_contra hgt
      obtain ⟨m, hm⟩ := hok
      unfold construct at hm
      rw [if_neg hgt] at hm
      exact Except.noConfusion hm
    · intro hle
      refine ⟨mkEmpty K V (derivedSlotCount C lfNum lfDen) H E, ?_⟩
      unfold construct
      rw [if_pos hle]
  · intro hgt
    unfold construct
    rw [if_neg hgt]

/-- Witness for C6: with width 16 a capacity-100 map (load factor 0.8)
constructs, while a capacity-70000 map (load factor 1.0) is rejected with
the configuration error. -/
theorem C6_construction_bound_witness :
    (derivedSlotCount 100 4 5 ≤ 2 ^ 16 - 1 ∧
      ∃ m, construct Nat Bool 16 100 4 5 natHash natBeq = Except.ok m) ∧
    (¬ derivedSlotCount 70000 1 1 ≤ 2 ^ 16 - 1 ∧
      construct Nat Bool 16 70000 1 1 natHash natBeq =
        Except.error ConfigError.capacityExceedsIndexWidth) := by
  constructor
  · exact ⟨by decide,
      ((C6_construction_bound Nat Bool 16 100 4 5 natHash natBeq
        (Or.inl rfl)).1).mpr (by decide)⟩
  · exact ⟨by decide,
      (C6_construction_bound Nat Bool 16 70000 1 1 natHash natBeq
        (Or.inl rfl)).2 (by decide)⟩

/-- C7: the map of the `load_factor` test (capacity 5000, load factor 0.5)
reports a slot count strictly greater than 5000 — indeed greater than
10000 — and emplacing the 10000 distinct keys 0 .. 9999 all succeed with no
out-of-capacity failure. -/
theorem C7_load_factor :
    SlotsNum Nat Bool lfMap > 5000 ∧ SlotsNum Nat Bool lfMap > 10000 ∧
    ∃ m2, emplaceSeq Nat Bool lfMap lfKeys = SeqResult.ok m2 := by
  refine ⟨?_, ?_, ?_⟩
  · rw [show SlotsNum Nat Bool lfMap = 10001 from rfl]
    omega
  · rw [show SlotsNum Nat Bool lfMap = 10001 from rfl]
    omega
  · have hWF0 : WF Nat Bool lfMap :=
      WF_mkEmpty Nat Bool (derivedSlotCount 5000 1 2) natHash natBeq
        (by rw [show derivedSlotCount 5000 1 2 = 10001 from rfl]; omega)
    have hfresh : ∀ p ∈ lfKeys, find Nat Bool lfMap p.1 = 0 :=
      fun p hp => find_mkEmpty Nat Bool (derivedSlotCount 5000 1 2) natHash
        natBeq p.1
    have hpw : List.Pairwise (fun p q => natBeq p.1 q.1 = false) lfKeys :=
      pairwise_range_pairs 10000 (fun x => true)
    have hlen : lfKeys.length ≤ lfMap.slotCount - lfMap.bump := by
      rw [show lfKeys.length = 10000 from by simp [lfKeys],
        show lfMap.slotCount = 10001 from rfl,
        show lfMap.bump = 1 from rfl]
    obtain ⟨m2, hrun, hrest⟩ := emplaceSeq_all_fresh Nat Bool natHash natBeq
      goodNat lfKeys lfMap hWF0 rfl rfl hfresh hpw hlen
    exact ⟨m2, hrun⟩

/-- C8: the out-of-capacity failure of emplace is surfaced to the caller as
a thrown `std::bad_alloc`: the `capacity_exceeded` loop over 6000 distinct
keys on the capacity-5000 map fails with CapacityExhausted, whose surfaced
C++ exception is `std::bad_alloc`. -/
theorem C8_capacity_failure_is_bad_alloc :
    ∃ mA, emplaceSeq Nat Bool capMap capKeys =
        SeqResult.failed mA 5000 EmplaceFailure.capacityExhausted ∧
      EmplaceFailure.surface EmplaceFailure.capacityExhausted =
        CppException.bad_alloc := by
  obtain ⟨mA, hrun, hprev⟩ := capacity_scenario
  exact ⟨mA, hrun, rfl⟩

/-- C9: mutating the value reached through `find(K)` changes only the entry
for K — a subsequent find of K observes the mutated value in the same slot,
while for every key K2 not equal to K the find result and the slot it
designates (also through a previously obtained iterator) are unchanged. -/
theorem C9_mutation_frame (K V : Type) (m : IMap K V)
    (good : GoodFns K m.hash m.keyEq) (k : K) (i : Nat) (f : V → V)
    (hfind : find K V m k = i) (hne : i ≠ 0) :
    (find K V (mutateVal K V m i f) k = i ∧
      ((mutateVal K V m i f).slots i).val =
        Option.map f ((m.slots i).val)) ∧
    ∀ k2, m.keyEq k k2 = false →
      find K V (mutateVal K V m i f) k2 = find K V m k2 ∧
      (mutateVal K V m i f).slots (find K V m k2) =
        m.slots (find K V m k2) := by
  have hm := searchChain_mem K V m k _ i hfind hne
  obtain ⟨hlink, ki, hkey, hkeq⟩ := slotMatches_true_elim K V m k i hm.2
  constructor
  · constructor
    · rw [find_mutateVal K V m i f k]
      exact hfind
    · exact mutateVal_val_self K V m i f
  · intro k2 hne2
    refine ⟨find_mutateVal K V m i f k2, ?_⟩
    by_cases hj0 : find K V m k2 = 0
    · rw [hj0]
      exact mutateVal_slots_other K V m i f 0 (Ne.symm hne)
    · by_cases hji : find K V m k2 = i
      · exfalso
        have hmj := searchChain_mem K V m k2 _ (find K V m k2) rfl hj0
        obtain ⟨hlj, kj, hkeyj, hkeqj⟩ :=
          slotMatches_true_elim K V m k2 (find K V m k2) hmj.2
        rw [hji, hkey] at hkeyj
        injection hkeyj with hkk
        have h1 : m.keyEq k ki = true := by
          rw [good.symm k ki]
          exact hkeq
        have h2 : m.keyEq k k2 = true :=
          good.trans k ki k2 h1 (hkk ▸ hkeqj)
        rw [h2] at hne2
        exact Bool.noConfusion hne2
      · exact mutateVal_slots_other K V m i f (find K V m k2) hji

/-- Witness for C9: in the map holding 1 ↦ 5 and 2 ↦ 6, bumping the value
of key 1 through its find reference yields 6 at the same slot, while key
2's find result and slot are untouched. -/
theorem C9_mutation_frame_witness :
    find Nat Nat (mutateVal Nat Nat wMap2 1 Nat.succ) 1 = 1 ∧
    ((mutateVal Nat Nat wMap2 1 Nat.succ).slots 1).val = some 6 ∧
    find Nat Nat (mutateVal Nat Nat wMap2 1 Nat.succ) 2 =
      find Nat Nat wMap2 2 ∧
    (mutateVal Nat Nat wMap2 1 Nat.succ).slots (find Nat Nat wMap2 2) =
      wMap2.slots (find Nat Nat wMap2 2) := by
  have h := C9_mutation_frame Nat Nat wMap2 goodNat 1 1 Nat.succ (by decide)
    (by decide)
  have h2 := h.2 2 (by decide)
  exact ⟨h.1.1, h.1.2, h2.1, h2.2⟩

/-- C10: the slot-sizing helper `nextPowTwo` of src/Bits.h is correct — for
a type of width w ∈ {16, 32, 64} and 1 ≤ v ≤ 2^(w−1), `nextPowTwo v` is the
least power of two ≥ v, and `nextPowTwo 0 = 1`; the underlying
`findLastSet` satisfies `findLastSet x = 1 + ⌊log2 x⌋` for every
representable x > 0 and `findLastSet 0 = 0`. -/
theorem C10_nextPowTwo_correct (w : Nat) (hw : w = 16 ∨ w = 32 ∨ w = 64) :
    (∀ v, 1 ≤ v → v ≤ 2 ^ (w - 1) →
      folly.IsLeastPowTwoGE (folly.nextPowTwo w v) v) ∧
    folly.nextPowTwo w 0 = 1 ∧
    (∀ v, 0 < v → v < 2 ^ w →
      folly.findLastSet w v = 1 + Nat.log2 v) ∧
    folly.findLastSet w 0 = 0 := by
  refine ⟨?_, folly.nextPowTwo_zero w, ?_, folly.findLastSet_zero w⟩
  · intro v h1 h2
    exact folly.nextPowTwo_least w hw v h1 h2
  · intro v h1 h2
    exact folly.findLastSet_eq_log2 w hw v h1 h2

/-- Witness for C10: at width 16, `nextPowTwo 5 = 8` is the least power of
two ≥ 5 and `findLastSet 5 = 3 = 1 + ⌊log2 5⌋`. -/
theorem C10_nextPowTwo_correct_witness :
    folly.nextPowTwo 16 5 = 8 ∧
    folly.IsLeastPowTwoGE (folly.nextPowTwo 16 5) 5 ∧
    folly.findLastSet 16 5 = 1 + Nat.log2 5 :=
  ⟨by
    norm_num [folly.nextPowTwo, folly.findLastSet, folly.builtin_clz,
      Nat.log2]
    decide,
    (C10_nextPowTwo_correct 16 (Or.inl rfl)).1 5 (by decide) (by decide),
    (C10_nextPowTwo_correct 16 (Or.inl rfl)).2.2.1 5 (by decide)
      (by decide)⟩

end AUM
